import Mathlib

/-!
Shallow embedding of the numeric kernel of the Numba/Dask example notebook
(`Examples.ipynb`).  The notebook defines one pure array computation,
`predict_over_time`, and three execution variants of it: an identical
jit-decorated copy (`jitted_func`), an eagerly compiled per-element kernel
(`fast_predict_over_time`, decorated with `guvectorize` over the layout
`(), (), (), (), (s) -> (s)`), and Dask `delayed` wrappers whose `.compute()`
triggers the wrapped call.

One-dimensional numpy arrays of `f8` values are modelled as `List ℚ`
(real/float arithmetic is modelled by exact rational arithmetic; every value
appearing in the notebook's formula is representable), `i8` arrays as
`List ℤ`, and matrices as `List (List ℚ)` (row major).  Elementwise binary
operations carry numpy's 1-D broadcasting rule: equal lengths operate
pointwise, a length-1 operand is stretched, and any other length mismatch is
an error, modelled by `Option`.
-/

/-- Numpy 1-D broadcasting for a binary elementwise operation: equal lengths
act pointwise, a length-1 array is broadcast across the other operand, and
any other mismatch is a shape error (`none`). -/
def bop (f : ℚ → ℚ → ℚ) (a b : List ℚ) : Option (List ℚ) :=
  if a.length = b.length then some (List.zipWith f a b)
  else if a.length = 1 then some (b.map (fun v => f (a.headD 0) v))
  else if b.length = 1 then some (a.map (fun v => f v (b.headD 0)))
  else none

/-- The right-hand side of the loop body of `predict_over_time`:
`t * x ** 2 + y - 2 * z - 2 * t`, evaluated with numpy broadcasting.
Scalar-by-array operations (`t * x ** 2`, `2 * z`, `- 2 * t`) are plain maps;
array-by-array operations go through `bop`. -/
def rowExpr (x y z : List ℚ) (t : ℕ) : Option (List ℚ) :=
  match bop (fun a b => a + b) (x.map (fun v => (t : ℚ) * v ^ 2)) y with
  | some q =>
    match bop (fun a b => a - b) q (z.map (fun v => 2 * v)) with
    | some r => some (r.map (fun v => v - 2 * (t : ℚ)))
    | none => none
  | none => none

/-- Matrix of zeros, the model of `np.zeros((n, m))`. -/
def zerosMat (n m : ℕ) : List (List ℚ) :=
  List.replicate n (List.replicate m 0)

/-- Column assignment `out[:, t] = col` with numpy broadcasting of the
right-hand side along the rows: the column must have one value per row, or a
single value broadcast to every row. -/
def assignCol (m : List (List ℚ)) (t : ℕ) (col : List ℚ) : Option (List (List ℚ)) :=
  if col.length = m.length then some (List.zipWith (fun row c => row.set t c) m col)
  else if col.length = 1 then some (m.map (fun row => row.set t (col.headD 0)))
  else none

/-- One iteration of the `for t in range(15)` loop body:
`out[:, t] = t * x ** 2 + y - 2 * z - 2 * t`. -/
def colStep (x y z : List ℚ) (m : List (List ℚ)) (t : ℕ) : Option (List (List ℚ)) :=
  match rowExpr x y z t with
  | some col => assignCol m t col
  | none => none

/-- The loop of `predict_over_time`, run over a list of time steps. -/
def buildOutAux (x y z : List ℚ) : List ℕ → List (List ℚ) → Option (List (List ℚ))
  | [], m => some m
  | t :: ts, m =>
    match colStep x y z m t with
    | some m₁ => buildOutAux x y z ts m₁
    | none => none

/-- The `out` matrix of `predict_over_time` after the full
`for t in range(15)` loop, starting from `np.zeros((x.shape[0], 15))`. -/
def buildOut (x y z : List ℚ) : Option (List (List ℚ)) :=
  buildOutAux x y z (List.range 15) (zerosMat x.length 15)

/-- Model of `predict_over_time(x, y, z, overlay=False)`: builds `out` by the
loop, then returns `adj * out` where `adj = 1.5 if overlay else 1.0`. -/
def predict_over_time (x y z : List ℚ) (overlay : Bool) : Option (List (List ℚ)) :=
  match buildOut x y z with
  | some out =>
    let adj : ℚ := if overlay then 3 / 2 else 1
    some (out.map (fun row => row.map (fun v => adj * v)))
  | none => none

/-- Model of `jitted_func`, the `@jit`-decorated copy of the same body; the
source repeats the body of `predict_over_time` verbatim. -/
def jitted_func (x y z : List ℚ) (overlay : Bool) : Option (List (List ℚ)) :=
  match buildOutAux x y z (List.range 15) (zerosMat x.length 15) with
  | some out =>
    let adj : ℚ := if overlay then 3 / 2 else 1
    some (out.map (fun row => row.map (fun v => adj * v)))
  | none => none

/-- Per-element kernel of the `@guvectorize` function: given scalar `x` (an
`i8`), scalars `y`, `z` (`f8`), the flag, and the core length `s` of the
output slot, fills `out[t] = adj * (t * x ** 2 + y - 2 * z - 2 * t)` for
`t` in `range(len(out))`. -/
def fast_kernel (xi : ℤ) (yi zi : ℚ) (overlay : Bool) (s : ℕ) : List ℚ :=
  let adj : ℚ := if overlay then 3 / 2 else 1
  (List.range s).map (fun (t : ℕ) =>
    adj * ((t : ℚ) * (xi : ℚ) ^ 2 + yi - 2 * zi - 2 * (t : ℚ)))

/-- Model of `fast_predict_over_time(x, y, z, overlay, dummy)`: the gufunc
broadcasts the scalar arguments over equally long arrays `x`, `y`, `z`; the
fifth argument only supplies the core dimension `s` (its last-axis length),
and the result is a freshly allocated `(N, s)` matrix.  Mismatched outer
lengths are a gufunc broadcast error (`none`). -/
def fast_predict_over_time (x : List ℤ) (y z : List ℚ) (overlay : Bool)
    (dummy : List ℚ) : Option (List (List ℚ)) :=
  if y.length = x.length ∧ z.length = x.length then
    some ((List.range x.length).map (fun i =>
      fast_kernel (x.getD i 0) (y.getD i 0) (z.getD i 0) overlay dummy.length))
  else none

/-- Model of a Dask delayed computation: a description that performs no work
until `compute` is invoked. -/
structure Delayed (α : Type) where
  thunk : Unit → α

/-- Trigger a delayed computation (`.compute()`). -/
def Delayed.compute {α : Type} (d : Delayed α) : α := d.thunk ()

/-- Model of `dask.delayed`: wrapping a function so a call builds a deferred
computation instead of running. -/
def delayed {α β : Type} (f : α → β) : α → Delayed β :=
  fun a => ⟨fun _ => f a⟩

/-- Model of `delayed(fast_predict_over_time)` applied to its five arguments, as
in the notebook cell that rebinds `fast_predict_over_time`. -/
def fast_predict_over_time_delayed (x : List ℤ) (y z : List ℚ) (overlay : Bool)
    (dummy : List ℚ) : Delayed (Option (List (List ℚ))) :=
  delayed (fun a : List ℤ × List ℚ × List ℚ × Bool × List ℚ =>
    fast_predict_over_time a.1 a.2.1 a.2.2.1 a.2.2.2.1 a.2.2.2.2)
    (x, y, z, overlay, dummy)

/-- Model of `fast_jitted_func = delayed(jitted_func)`. -/
def fast_jitted_func (x y z : List ℚ) (overlay : Bool) :
    Delayed (Option (List (List ℚ))) :=
  delayed (fun a : List ℚ × List ℚ × List ℚ × Bool =>
    jitted_func a.1 a.2.1 a.2.2.1 a.2.2.2) (x, y, z, overlay)

/-- The scalar formula `value(i, t)` of the kernel, before the overlay
adjustment. -/
def valueAt (xi yi zi : ℚ) (t : ℕ) : ℚ :=
  (t : ℚ) * xi ^ 2 + yi - 2 * zi - 2 * (t : ℚ)

/-- Closed form of the loop body's right-hand side on equal-length inputs:
one value per element of `x`. -/
def colVals (x y z : List ℚ) (t : ℕ) : List ℚ :=
  (List.range x.length).map (fun i => valueAt (x.getD i 0) (y.getD i 0) (z.getD i 0) t)

/-- Row `i` of `out` after running the loop over the time steps `ts`,
starting from `row`: each step writes `valueAt … t` into slot `t`. -/
def rowFill (xi yi zi : ℚ) (ts : List ℕ) (row : List ℚ) : List ℚ :=
  ts.foldl (fun r t => r.set t (valueAt xi yi zi t)) row

/-- Closed form of the whole computation on equal-length inputs: the `(N, 15)`
matrix of adjusted formula values. -/
def predictMat (x y z : List ℚ) (overlay : Bool) : List (List ℚ) :=
  let adj : ℚ := if overlay then 3 / 2 else 1
  (List.range x.length).map (fun i =>
    (List.range 15).map (fun t => adj * valueAt (x.getD i 0) (y.getD i 0) (z.getD i 0) t))

/-- A value stored on the heap of the imperative model: an integer vector
(`i8` array), a rational vector (`f8` array), or a matrix. -/
inductive NpVal where
  | ivec : List ℤ → NpVal
  | vec : List ℚ → NpVal
  | mat : List (List ℚ) → NpVal
deriving DecidableEq

/-- The heap of the imperative model: numpy arrays addressed by position;
allocation appends a cell at the end. -/
abbrev Heap := List NpVal

/-- The loop of `predict_over_time` acting on the heap: each iteration reads
the `out` matrix at address `rout`, runs one column assignment in place, and
writes the cell back. -/
def heapLoop (x y z : List ℚ) (rout : ℕ) : List ℕ → Heap → Option Heap
  | [], h => some h
  | t :: ts, h =>
    match h[rout]? with
    | some (NpVal.mat m) =>
      match colStep x y z m t with
      | some m₁ => heapLoop x y z rout ts (h.set rout (NpVal.mat m₁))
      | _ => none
    | _ => none

/-- Imperative (heap-level) model of `predict_over_time`: reads the argument
arrays `x`, `y`, `z` at addresses `rx`, `ry`, `rz`, allocates the fresh
`out = np.zeros((x.shape[0], 15))`, mutates it column by column, and finally
allocates `adj * out` as a second fresh array, whose address is returned. -/
def predictImp (h : Heap) (rx ry rz : ℕ) (overlay : Bool) : Option (Heap × ℕ) :=
  match h[rx]?, h[ry]?, h[rz]? with
  | some (NpVal.vec x), some (NpVal.vec y), some (NpVal.vec z) =>
    let rout := h.length
    let h₁ := h ++ [NpVal.mat (zerosMat x.length 15)]
    match heapLoop x y z rout (List.range 15) h₁ with
    | some h₂ =>
      match h₂[rout]? with
      | some (NpVal.mat out) =>
        let adj : ℚ := if overlay then 3 / 2 else 1
        some (h₂ ++ [NpVal.mat (out.map (fun row => row.map (fun v => adj * v)))],
          h₂.length)
      | _ => none
    | _ => none
  | _, _, _ => none

/-- The value the caller of the imperative model observes: the heap cell at
the returned address. -/
def predictImpResult (h : Heap) (rx ry rz : ℕ) (overlay : Bool) : Option NpVal :=
  match predictImp h rx ry rz overlay with
  | some (h₁, r) => h₁[r]?
  | _ => none

/-- Purely value-level view of a call: what the result is as a function of the
three argument values alone. -/
def pureResult (vx vy vz : Option NpVal) (overlay : Bool) : Option NpVal :=
  match vx, vy, vz with
  | some (NpVal.vec x), some (NpVal.vec y), some (NpVal.vec z) =>
    (predict_over_time x y z overlay).map NpVal.mat
  | _, _, _ => none

/-- Imperative (heap-level) model of `fast_predict_over_time`: the gufunc
reads its four array arguments and allocates the output matrix as a fresh
cell; the dummy argument is only read. -/
def fastImp (h : Heap) (rx ry rz : ℕ) (overlay : Bool) (rd : ℕ) : Option (Heap × ℕ) :=
  match h[rx]?, h[ry]?, h[rz]?, h[rd]? with
  | some (NpVal.ivec x), some (NpVal.vec y), some (NpVal.vec z), some (NpVal.vec d) =>
    match fast_predict_over_time x y z overlay d with
    | some m => some (h ++ [NpVal.mat m], h.length)
    | _ => none
  | _, _, _, _ => none

/-! ### Lemmas about the broadcast operations and the loop -/

lemma bop_of_length_eq (f : ℚ → ℚ → ℚ) {a b : List ℚ} (h : a.length = b.length) :
    bop f a b = some (List.zipWith f a b) := by
  simp [bop, h]

lemma map_getD_range {α : Type} (m : List α) (d : α) :
    (List.range m.length).map (fun i => m.getD i d) = m := by
  apply List.ext_getElem
  · simp
  · intro i h₁ h₂
    simp only [List.getElem_map, List.getElem_range]
    exact List.getD_eq_getElem m d h₂

lemma colVals_length (x y z : List ℚ) (t : ℕ) :
    (colVals x y z t).length = x.length := by
  simp [colVals]

lemma colVals_getD {x y z : List ℚ} {i : ℕ} (hi : i < x.length) (t : ℕ) :
    (colVals x y z t).getD i 0 =
      valueAt (x.getD i 0) (y.getD i 0) (z.getD i 0) t := by
  rw [List.getD_eq_getElem _ _ (by simpa [colVals] using hi)]
  simp [colVals]

lemma rowExpr_of_length {x y z : List ℚ} (hy : y.length = x.length)
    (hz : z.length = x.length) (t : ℕ) :
    rowExpr x y z t = some (colVals x y z t) := by
  have h₁ : (x.map (fun v => (t : ℚ) * v ^ 2)).length = y.length := by simp [hy]
  have h₂ : (List.zipWith (fun a b => a + b)
        (x.map (fun v => (t : ℚ) * v ^ 2)) y).length
      = (z.map (fun v => 2 * v)).length := by
    simp [hy, hz]
  simp only [rowExpr, bop_of_length_eq _ h₁, bop_of_length_eq _ h₂]
  congr 1
  apply List.ext_getElem
  · simp [colVals, hy, hz]
  · intro i hL hR
    have hx : i < x.length := by
      simp only [List.length_map, List.length_zipWith, List.length_range] at hL
      omega
    have hyi : i < y.length := by omega
    have hzi : i < z.length := by omega
    simp only [List.getElem_map, List.getElem_zipWith, colVals, List.getElem_range]
    rw [List.getD_eq_getElem x 0 hx, List.getD_eq_getElem y 0 hyi,
      List.getD_eq_getElem z 0 hzi]
    rfl

lemma assignCol_of_length {m : List (List ℚ)} {col : List ℚ} (t : ℕ)
    (h : col.length = m.length) :
    assignCol m t col =
      some (List.zipWith (fun row c => row.set t c) m col) := by
  simp [assignCol, h]

lemma colStep_of_length {x y z : List ℚ} (hy : y.length = x.length)
    (hz : z.length = x.length) {m : List (List ℚ)} (hm : m.length = x.length)
    (t : ℕ) :
    colStep x y z m t =
      some (List.zipWith (fun row c => row.set t c) m (colVals x y z t)) := by
  simp only [colStep, rowExpr_of_length hy hz]
  exact assignCol_of_length t (by rw [colVals_length, hm])

lemma buildOutAux_eq {x y z : List ℚ} (hy : y.length = x.length)
    (hz : z.length = x.length) (ts : List ℕ) :
    ∀ (m : List (List ℚ)), m.length = x.length →
      buildOutAux x y z ts m = some ((List.range x.length).map (fun i =>
        rowFill (x.getD i 0) (y.getD i 0) (z.getD i 0) ts (m.getD i []))) := by
  induction ts with
  | nil =>
    intro m hm
    simp only [buildOutAux, rowFill, List.foldl_nil]
    rw [← hm, map_getD_range m []]
  | cons t ts ih =>
    intro m hm
    simp only [buildOutAux, colStep_of_length hy hz hm t]
    have hm₁ : (List.zipWith (fun row c => row.set t c) m (colVals x y z t)).length
        = x.length := by
      simp [colVals_length, hm]
    rw [ih _ hm₁]
    congr 1
    apply List.map_congr_left
    intro i hi
    have hiN : i < x.length := List.mem_range.mp hi
    have h₁ : i < m.length := by omega
    have h₂ : i < (colVals x y z t).length := by rw [colVals_length]; exact hiN
    have hzw : (List.zipWith (fun row c => row.set t c) m (colVals x y z t)).getD i []
        = (m.getD i []).set t (valueAt (x.getD i 0) (y.getD i 0) (z.getD i 0) t) := by
      rw [List.getD_eq_getElem _ _ (by rw [hm₁]; exact hiN), List.getElem_zipWith,
        ← List.getD_eq_getElem m [] h₁, ← colVals_getD hiN t,
        List.getD_eq_getElem _ _ h₂]
    rw [hzw]
    rfl

lemma buildOut_eq {x y z : List ℚ} (hy : y.length = x.length)
    (hz : z.length = x.length) :
    buildOut x y z = some ((List.range x.length).map (fun i =>
      rowFill (x.getD i 0) (y.getD i 0) (z.getD i 0) (List.range 15)
        (List.replicate 15 (0 : ℚ)))) := by
  have hlen : (zerosMat x.length 15).length = x.length := by simp [zerosMat]
  have h0 := buildOutAux_eq hy hz (List.range 15) (zerosMat x.length 15) hlen
  refine h0.trans (congrArg some (List.map_congr_left (fun i hi => ?_)))
  have hiN : i < x.length := List.mem_range.mp hi
  have hrow : (zerosMat x.length 15).getD i [] = List.replicate 15 (0 : ℚ) := by
    rw [List.getD_eq_getElem _ _ (by simpa [zerosMat] using hiN)]
    simp [zerosMat]
  rw [hrow]

lemma rowFill_range (xi yi zi : ℚ) :
    ∀ (s : ℕ) (row : List ℚ), s ≤ row.length →
      rowFill xi yi zi (List.range s) row =
        (List.range s).map (valueAt xi yi zi) ++ row.drop s := by
  intro s
  induction s with
  | zero => intro row h; simp [rowFill]
  | succ n ih =>
    intro row h
    have hn : n ≤ row.length := Nat.le_of_succ_le h
    have hlt : n < row.length := h
    have key : rowFill xi yi zi (List.range (n + 1)) row
        = (rowFill xi yi zi (List.range n) row).set n (valueAt xi yi zi n) := by
      rw [List.range_succ, rowFill, List.foldl_append]
      rfl
    have hmaplen : ((List.range n).map (valueAt xi yi zi)).length = n := by simp
    rw [key, ih row hn, List.set_append, hmaplen, if_neg (lt_irrefl n), Nat.sub_self,
      List.drop_eq_getElem_cons hlt, List.set_cons_zero, List.range_succ]
    simp

lemma rowFill_range_replicate (xi yi zi : ℚ) (s : ℕ) :
    rowFill xi yi zi (List.range s) (List.replicate s (0 : ℚ)) =
      (List.range s).map (valueAt xi yi zi) := by
  rw [rowFill_range xi yi zi s _ (by simp)]
  simp

lemma buildOut_closed {x y z : List ℚ} (hy : y.length = x.length)
    (hz : z.length = x.length) :
    buildOut x y z = some ((List.range x.length).map (fun i =>
      (List.range 15).map (valueAt (x.getD i 0) (y.getD i 0) (z.getD i 0)))) := by
  exact (buildOut_eq hy hz).trans (congrArg some (List.map_congr_left
    (fun i _ => rowFill_range_replicate _ _ _ 15)))

lemma predict_over_time_closed {x y z : List ℚ} (hy : y.length = x.length)
    (hz : z.length = x.length) (overlay : Bool) :
    predict_over_time x y z overlay = some (predictMat x y z overlay) := by
  simp only [predict_over_time, buildOut_closed hy hz]
  refine congrArg some ?_
  simp only [predictMat, List.map_map]
  refine List.map_congr_left (fun i _ => ?_)
  simp [Function.comp, List.map_map]

lemma jitted_func_eq (x y z : List ℚ) (overlay : Bool) :
    jitted_func x y z overlay = predict_over_time x y z overlay := rfl

lemma heapLoop_eq (x y z : List ℚ) (rout : ℕ) (ts : List ℕ) :
    ∀ (h : Heap) (m : List (List ℚ)), h[rout]? = some (NpVal.mat m) →
      heapLoop x y z rout ts h =
        (buildOutAux x y z ts m).map (fun m₁ => h.set rout (NpVal.mat m₁)) := by
  induction ts with
  | nil =>
    intro h m hm
    have hset : h.set rout (NpVal.mat m) = h := by
      apply List.ext_getElem?
      intro j
      by_cases hj : rout = j
      · subst hj; rw [List.getElem?_set_self', hm]; rfl
      · rw [List.getElem?_set_ne hj]
    simp [heapLoop, buildOutAux, hset]
  | cons t ts ih =>
    intro h m hm
    simp only [heapLoop, buildOutAux, hm]
    cases hc : colStep x y z m t with
    | none => simp
    | some m₁ =>
      have hset : (h.set rout (NpVal.mat m₁))[rout]? = some (NpVal.mat m₁) := by
        rw [List.getElem?_set_self', hm]; rfl
      dsimp only
      rw [ih _ _ hset]
      cases buildOutAux x y z ts m₁ <;> simp [List.set_set]

lemma predictImp_eq {h : Heap} {rx ry rz : ℕ} {x y z : List ℚ} (overlay : Bool)
    (hx : h[rx]? = some (NpVal.vec x)) (hy : h[ry]? = some (NpVal.vec y))
    (hz : h[rz]? = some (NpVal.vec z)) :
    predictImp h rx ry rz overlay =
      (buildOut x y z).map (fun out =>
        (h ++ [NpVal.mat out, NpVal.mat (out.map (fun row => row.map (fun v =>
          (if overlay then (3 : ℚ) / 2 else 1) * v)))], h.length + 1)) := by
  have hzero : (h ++ [NpVal.mat (zerosMat x.length 15)])[h.length]?
      = some (NpVal.mat (zerosMat x.length 15)) := List.getElem?_concat_length _ _
  simp only [predictImp, hx, hy, hz]
  rw [heapLoop_eq x y z h.length (List.range 15) _ _ hzero]
  cases hb : buildOutAux x y z (List.range 15) (zerosMat x.length 15) with
  | none =>
    have hbO : buildOut x y z = none := hb
    simp [hbO]
  | some out =>
    have hbO : buildOut x y z = some out := hb
    have hset : (h ++ [NpVal.mat (zerosMat x.length 15)]).set h.length (NpVal.mat out)
        = h ++ [NpVal.mat out] := by
      rw [List.set_append, if_neg (lt_irrefl _), Nat.sub_self]
      rfl
    simp only [hbO, Option.map_some', hset, List.getElem?_concat_length]
    rw [List.append_assoc]
    simp

lemma predictMat_getD {x y z : List ℚ} {i t : ℕ} (hi : i < x.length) (ht : t < 15)
    (overlay : Bool) :
    ((predictMat x y z overlay).getD i []).getD t 0 =
      (if overlay then (3 : ℚ) / 2 else 1) *
        valueAt (x.getD i 0) (y.getD i 0) (z.getD i 0) t := by
  have h₁ : i < (predictMat x y z overlay).length := by simpa [predictMat] using hi
  rw [List.getD_eq_getElem _ _ h₁]
  simp only [predictMat, List.getElem_map, List.getElem_range]
  rw [List.getD_eq_getElem _ _ (by simpa using ht)]
  simp

lemma predictMat_getD_zero {x y z : List ℚ} {i t : ℕ} (overlay : Bool)
    (h : ¬(i < x.length ∧ t < 15)) :
    ((predictMat x y z overlay).getD i []).getD t 0 = 0 := by
  by_cases hi : i < x.length
  · have ht : 15 ≤ t := by omega
    have h₁ : i < (predictMat x y z overlay).length := by simpa [predictMat] using hi
    rw [List.getD_eq_getElem _ _ h₁]
    simp only [predictMat, List.getElem_map, List.getElem_range]
    exact List.getD_eq_default _ _ (by simpa using ht)
  · have h₁ : (predictMat x y z overlay).length ≤ i := by simp [predictMat]; omega
    rw [List.getD_eq_default _ _ h₁]
    simp

lemma fast_kernel_getD {t s : ℕ} (ht : t < s) (xi : ℤ) (yi zi : ℚ) (overlay : Bool) :
    (fast_kernel xi yi zi overlay s).getD t 0 =
      (if overlay then (3 : ℚ) / 2 else 1) *
        ((t : ℚ) * (xi : ℚ) ^ 2 + yi - 2 * zi - 2 * (t : ℚ)) := by
  rw [List.getD_eq_getElem _ _ (by simpa [fast_kernel] using ht)]
  simp [fast_kernel]

lemma fast_predict_eq_predictMat {x : List ℤ} {y z : List ℚ}
    (hy : y.length = x.length) (hz : z.length = x.length) (overlay : Bool)
    {dummy : List ℚ} (hd : dummy.length = 15) :
    fast_predict_over_time x y z overlay dummy =
      some (predictMat (x.map (fun (v : ℤ) => (v : ℚ))) y z overlay) := by
  simp only [fast_predict_over_time, if_pos (And.intro hy hz), hd]
  refine congrArg some ?_
  simp only [predictMat, fast_kernel, List.length_map]
  refine List.map_congr_left (fun i hi => ?_)
  have hiN : i < x.length := List.mem_range.mp hi
  refine List.map_congr_left (fun t _ => ?_)
  have hxc : (x.map (fun (v : ℤ) => (v : ℚ))).getD i 0 = ((x.getD i 0 : ℤ) : ℚ) := by
    rw [List.getD_eq_getElem _ _ (by simpa using hiN), List.getElem_map,
      ← List.getD_eq_getElem x 0 hiN]
  rw [hxc]
  simp [valueAt]

lemma predictImpResult_eq (h : Heap) (rx ry rz : ℕ) (overlay : Bool) :
    predictImpResult h rx ry rz overlay = pureResult h[rx]? h[ry]? h[rz]? overlay := by
  cases hx : h[rx]? with
  | none => simp [predictImpResult, predictImp, pureResult, hx]
  | some u =>
    cases u with
    | ivec a => simp [predictImpResult, predictImp, pureResult, hx]
    | mat a => simp [predictImpResult, predictImp, pureResult, hx]
    | vec a =>
      cases hy : h[ry]? with
      | none => simp [predictImpResult, predictImp, pureResult, hx, hy]
      | some v =>
        cases v with
        | ivec b => simp [predictImpResult, predictImp, pureResult, hx, hy]
        | mat b => simp [predictImpResult, predictImp, pureResult, hx, hy]
        | vec b =>
          cases hz : h[rz]? with
          | none => simp [predictImpResult, predictImp, pureResult, hx, hy, hz]
          | some w =>
            cases w with
            | ivec c => simp [predictImpResult, predictImp, pureResult, hx, hy, hz]
            | mat c => simp [predictImpResult, predictImp, pureResult, hx, hy, hz]
            | vec c =>
              simp only [predictImpResult, predictImp_eq overlay hx hy hz, pureResult]
              cases hb : buildOut a b c with
              | none => simp [predict_over_time, hb]
              | some out =>
                have hsplit : h ++ [NpVal.mat out,
                    NpVal.mat (out.map (fun row => row.map (fun v =>
                      (if overlay then (3 : ℚ) / 2 else 1) * v)))]
                    = (h ++ [NpVal.mat out]) ++ [NpVal.mat (out.map (fun row =>
                      row.map (fun v => (if overlay then (3 : ℚ) / 2 else 1) * v)))] := by
                  simp
                have hlen : (h ++ [NpVal.mat out]).length = h.length + 1 := by simp
                have hlook : ((h ++ [NpVal.mat out]) ++ [NpVal.mat (out.map (fun row =>
                      row.map (fun v => (if overlay then (3 : ℚ) / 2 else 1) * v)))])[
                        h.length + 1]?
                    = some (NpVal.mat (out.map (fun row =>
                      row.map (fun v => (if overlay then (3 : ℚ) / 2 else 1) * v)))) := by
                  rw [← hlen]
                  exact List.getElem?_concat_length _ _
                simp only [Option.map_some', hsplit, hlook, predict_over_time, hb]

lemma predictImp_some_inv {h : Heap} {rx ry rz : ℕ} {overlay : Bool} {h' : Heap}
    {r : ℕ} (hcall : predictImp h rx ry rz overlay = some (h', r)) :
    ∃ x y z out, h[rx]? = some (NpVal.vec x) ∧ h[ry]? = some (NpVal.vec y) ∧
      h[rz]? = some (NpVal.vec z) ∧ buildOut x y z = some out ∧
      h' = h ++ [NpVal.mat out, NpVal.mat (out.map (fun row => row.map (fun v =>
        (if overlay then (3 : ℚ) / 2 else 1) * v)))] ∧ r = h.length + 1 := by
  cases hx : h[rx]? with
  | none => rw [predictImp, hx] at hcall; cases hcall
  | some u =>
    cases u with
    | ivec a => rw [predictImp, hx] at hcall; cases hcall
    | mat a => rw [predictImp, hx] at hcall; cases hcall
    | vec a =>
      cases hy : h[ry]? with
      | none => rw [predictImp, hx, hy] at hcall; cases hcall
      | some v =>
        cases v with
        | ivec b => rw [predictImp, hx, hy] at hcall; cases hcall
        | mat b => rw [predictImp, hx, hy] at hcall; cases hcall
        | vec b =>
          cases hz : h[rz]? with
          | none => rw [predictImp, hx, hy, hz] at hcall; cases hcall
          | some w =>
            cases w with
            | ivec c => rw [predictImp, hx, hy, hz] at hcall; cases hcall
            | mat c => rw [predictImp, hx, hy, hz] at hcall; cases hcall
            | vec c =>
              rw [predictImp_eq overlay hx hy hz] at hcall
              cases hb : buildOut a b c with
              | none => rw [hb] at hcall; cases hcall
              | some out =>
                rw [hb] at hcall
                simp only [Option.map_some', Option.some.injEq, Prod.mk.injEq] at hcall
                exact ⟨a, b, c, out, rfl, rfl, rfl, hb, hcall.1.symm, hcall.2.symm⟩

lemma fastImp_some_inv {h : Heap} {rx ry rz rd : ℕ} {overlay : Bool} {h' : Heap}
    {r : ℕ} (hcall : fastImp h rx ry rz overlay rd = some (h', r)) :
    ∃ m, h' = h ++ [NpVal.mat m] ∧ r = h.length ∧ rd < h.length := by
  cases hx : h[rx]? with
  | none => rw [fastImp, hx] at hcall; cases hcall
  | some u =>
    cases u with
    | vec a => rw [fastImp, hx] at hcall; cases hcall
    | mat a => rw [fastImp, hx] at hcall; cases hcall
    | ivec a =>
      cases hy : h[ry]? with
      | none => rw [fastImp, hx, hy] at hcall; cases hcall
      | some v =>
        cases v with
        | ivec b => rw [fastImp, hx, hy] at hcall; cases hcall
        | mat b => rw [fastImp, hx, hy] at hcall; cases hcall
        | vec b =>
          cases hz : h[rz]? with
          | none => rw [fastImp, hx, hy, hz] at hcall; cases hcall
          | some w =>
            cases w with
            | ivec c => rw [fastImp, hx, hy, hz] at hcall; cases hcall
            | mat c => rw [fastImp, hx, hy, hz] at hcall; cases hcall
            | vec c =>
              cases hd : h[rd]? with
              | none => rw [fastImp, hx, hy, hz, hd] at hcall; cases hcall
              | some u₁ =>
                cases u₁ with
                | ivec d => rw [fastImp, hx, hy, hz, hd] at hcall; cases hcall
                | mat d => rw [fastImp, hx, hy, hz, hd] at hcall; cases hcall
                | vec d =>
                  rw [fastImp, hx, hy, hz, hd] at hcall
                  dsimp only at hcall
                  have hrd : rd < h.length := (List.getElem?_eq_some.mp hd).1
                  cases hf : fast_predict_over_time a b c overlay d with
                  | none => rw [hf] at hcall; dsimp only at hcall; cases hcall
                  | some m =>
                    rw [hf] at hcall
                    dsimp only at hcall
                    simp only [Option.some.injEq, Prod.mk.injEq] at hcall
                    exact ⟨m, hcall.1.symm, hcall.2.symm, hrd⟩

lemma assignCol_length {m m' : List (List ℚ)} {t : ℕ} {col : List ℚ}
    (h : assignCol m t col = some m') : m'.length = m.length := by
  by_cases h₁ : col.length = m.length
  · rw [assignCol, if_pos h₁] at h
    cases h
    simp [List.length_zipWith, h₁]
  · rw [assignCol, if_neg h₁] at h
    by_cases h₂ : col.length = 1
    · rw [if_pos h₂] at h
      cases h
      simp
    · rw [if_neg h₂] at h
      cases h

lemma colStep_length {x y z : List ℚ} {m m' : List (List ℚ)} {t : ℕ}
    (h : colStep x y z m t = some m') : m'.length = m.length := by
  unfold colStep at h
  cases hr : rowExpr x y z t with
  | none => rw [hr] at h; cases h
  | some col =>
    rw [hr] at h
    dsimp only at h
    exact assignCol_length h

lemma buildOutAux_length {x y z : List ℚ} (ts : List ℕ) :
    ∀ {m m' : List (List ℚ)}, buildOutAux x y z ts m = some m' →
      m'.length = m.length := by
  induction ts with
  | nil =>
    intro m m' h
    rw [buildOutAux] at h
    cases h
    rfl
  | cons t ts ih =>
    intro m m' h
    rw [buildOutAux] at h
    cases hc : colStep x y z m t with
    | none => rw [hc] at h; cases h
    | some m₁ =>
      rw [hc] at h
      dsimp only at h
      exact (ih h).trans (colStep_length hc)

lemma predict_over_time_length {x y z : List ℚ} {overlay : Bool}
    {m : List (List ℚ)} (h : predict_over_time x y z overlay = some m) :
    m.length = x.length := by
  unfold predict_over_time at h
  cases hb : buildOut x y z with
  | none => rw [hb] at h; cases h
  | some out =>
    rw [hb] at h
    dsimp only at h
    cases h
    have hlen : out.length = (zerosMat x.length 15).length :=
      buildOutAux_length (List.range 15) hb
    simp only [zerosMat, List.length_replicate] at hlen
    simp [hlen]

lemma bop_of_length_one {f : ℚ → ℚ → ℚ} {a b : List ℚ} (hb : b.length = 1) :
    ∃ c, bop f a b = some c ∧ c.length = a.length := by
  by_cases h : a.length = b.length
  · exact ⟨_, bop_of_length_eq f h, by simp [List.length_zipWith, h, hb]⟩
  · have ha : a.length ≠ 1 := fun h₁ => h (h₁.trans hb.symm)
    refine ⟨a.map (fun v => f v (b.headD 0)), ?_, by simp⟩
    rw [bop, if_neg h, if_neg ha, if_pos hb]

lemma rowExpr_of_broadcast {x y z : List ℚ} (hy : y.length = 1)
    (hz : z.length = 1) (t : ℕ) :
    ∃ col, rowExpr x y z t = some col ∧ col.length = x.length := by
  obtain ⟨q, hq, hqlen⟩ := bop_of_length_one
    (f := fun a b => a + b) (a := x.map (fun v => (t : ℚ) * v ^ 2)) hy
  obtain ⟨r, hr, hrlen⟩ := bop_of_length_one
    (f := fun a b => a - b) (a := q) (b := z.map (fun v => 2 * v)) (by simp [hz])
  refine ⟨r.map (fun v => v - 2 * (t : ℚ)), ?_, by simp [hrlen]; rw [hqlen]; simp⟩
  simp only [rowExpr, hq, hr]

lemma assignCol_rows {m m' : List (List ℚ)} {t : ℕ} {col : List ℚ}
    (h : assignCol m t col = some m') (hr : ∀ row ∈ m, row.length = 15) :
    ∀ row ∈ m', row.length = 15 := by
  intro row hrow
  by_cases h₁ : col.length = m.length
  · rw [assignCol, if_pos h₁] at h
    cases h
    obtain ⟨i, hi, hrow'⟩ := List.mem_iff_getElem.mp hrow
    have him : i < m.length := by
      simp only [List.length_zipWith] at hi
      omega
    rw [← hrow', List.getElem_zipWith, List.length_set]
    exact hr _ (List.getElem_mem him)
  · rw [assignCol, if_neg h₁] at h
    by_cases h₂ : col.length = 1
    · rw [if_pos h₂] at h
      cases h
      obtain ⟨r, hrm, hrow'⟩ := List.mem_map.mp hrow
      rw [← hrow', List.length_set]
      exact hr _ hrm
    · rw [if_neg h₂] at h
      cases h

lemma buildOutAux_broadcast {x y z : List ℚ} (hy : y.length = 1)
    (hz : z.length = 1) (ts : List ℕ) :
    ∀ m : List (List ℚ), m.length = x.length → (∀ row ∈ m, row.length = 15) →
      ∃ m', buildOutAux x y z ts m = some m' ∧ m'.length = x.length ∧
        ∀ row ∈ m', row.length = 15 := by
  induction ts with
  | nil => intro m hm hr; exact ⟨m, rfl, hm, hr⟩
  | cons t ts ih =>
    intro m hm hr
    obtain ⟨col, hcol, hcollen⟩ := rowExpr_of_broadcast hy hz t
    have hac : assignCol m t col =
        some (List.zipWith (fun row c => row.set t c) m col) :=
      assignCol_of_length t (by rw [hcollen, hm])
    have hm₁len : (List.zipWith (fun row c => row.set t c) m col).length
        = x.length := by
      simp [List.length_zipWith, hm, hcollen]
    have hm₁rows := assignCol_rows hac hr
    obtain ⟨m', hm', hlen', hrows'⟩ := ih _ hm₁len hm₁rows
    refine ⟨m', ?_, hlen', hrows'⟩
    simp only [buildOutAux, colStep, hcol, hac, hm']

lemma predict_over_time_broadcast {x y z : List ℚ} (hy : y.length = 1)
    (hz : z.length = 1) (overlay : Bool) :
    ∃ m, predict_over_time x y z overlay = some m ∧ m.length = x.length ∧
      ∀ row ∈ m, row.length = 15 := by
  have hzrows : ∀ row ∈ zerosMat x.length 15, row.length = 15 := by
    intro row hrow
    rw [List.eq_of_mem_replicate hrow]
    simp
  obtain ⟨out, hout, hlen, hrows⟩ := buildOutAux_broadcast (x := x) hy hz
    (List.range 15) (zerosMat x.length 15) (by simp [zerosMat]) hzrows
  refine ⟨out.map (fun row => row.map (fun v =>
    (if overlay then (3 : ℚ) / 2 else 1) * v)), ?_, by simp [hlen], ?_⟩
  · simp only [predict_over_time, buildOut, hout]
  · intro row hrow
    obtain ⟨r, hrm, hrow'⟩ := List.mem_map.mp hrow
    rw [← hrow']
    simp [hrows r hrm]

/-! ### Claim theorems -/

/-- C1: for every call `predict_over_time(x, y, z, overlay)` with `x`, `y`,
`z` numeric sequences of equal length `N`, every element index `i < N` and
every time step `t < 15`, the returned matrix satisfies
`result[i][t] = adj * (t * x[i]^2 + y[i] - 2*z[i] - 2*t)` with `adj = 1.5`
when `overlay` is true and `1.0` otherwise. -/
theorem predict_over_time_formula (x y z : List ℚ) (overlay : Bool) (i t : ℕ)
    (hy : y.length = x.length) (hz : z.length = x.length)
    (hi : i < x.length) (ht : t < 15) :
    ∃ m, predict_over_time x y z overlay = some m ∧
      (m.getD i []).getD t 0 =
        (if overlay then (3 : ℚ) / 2 else 1) *
          ((t : ℚ) * (x.getD i 0) ^ 2 + y.getD i 0 - 2 * z.getD i 0
            - 2 * (t : ℚ)) := by
  refine ⟨predictMat x y z overlay, predict_over_time_closed hy hz overlay, ?_⟩
  rw [predictMat_getD hi ht]
  rfl

/-- Witness for C1 at `x = [2]`, `y = [1]`, `z = [1/2]`, `overlay = false`,
`i = 0`, `t = 1`. -/
theorem predict_over_time_formula_witness :
    ∃ m, predict_over_time [2] [1] [1 / 2] false = some m ∧
      (m.getD 0 []).getD 1 0 =
        (if false then (3 : ℚ) / 2 else 1) *
          ((1 : ℚ) * (([2] : List ℚ).getD 0 0) ^ 2 + ([1] : List ℚ).getD 0 0
            - 2 * (([1 / 2] : List ℚ).getD 0 0) - 2 * (1 : ℚ)) :=
  predict_over_time_formula [2] [1] [1 / 2] false 0 1 rfl rfl
    (by decide) (by decide)

/-- C2: for every `N ≥ 0` and valid input triple of common length `N`
(the empty case included), the returned matrix has exactly `N` rows and 15
columns. -/
theorem predict_over_time_shape (x y z : List ℚ) (overlay : Bool)
    (hy : y.length = x.length) (hz : z.length = x.length) :
    ∃ m, predict_over_time x y z overlay = some m ∧
      m.length = x.length ∧ ∀ row ∈ m, row.length = 15 := by
  refine ⟨predictMat x y z overlay, predict_over_time_closed hy hz overlay,
    by simp [predictMat], ?_⟩
  intro row hr
  simp only [predictMat, List.mem_map] at hr
  obtain ⟨i, -, hrow⟩ := hr
  rw [← hrow]
  simp

/-- Witness for C2 at the empty input `N = 0`. -/
theorem predict_over_time_shape_witness :
    ∃ m, predict_over_time [] [] [] true = some m ∧
      m.length = ([] : List ℚ).length ∧ ∀ row ∈ m, row.length = 15 :=
  predict_over_time_shape [] [] [] true rfl rfl

/-- C3: on the same inputs, the direct function, the jit copy, the eagerly
compiled gufunc called with a length-15 dummy array, and the deferred
wrappers once `.compute()` is invoked, all return the identical matrix
(exactly equal in this exact-arithmetic model); deferring changes only when
the work happens, not the value produced. -/
theorem variants_equivalent (x : List ℤ) (y z : List ℚ) (overlay : Bool)
    (dummy : List ℚ) (hy : y.length = x.length) (hz : z.length = x.length)
    (hd : dummy.length = 15) :
    ∃ m, predict_over_time (x.map (fun (v : ℤ) => (v : ℚ))) y z overlay = some m ∧
      jitted_func (x.map (fun (v : ℤ) => (v : ℚ))) y z overlay = some m ∧
      fast_predict_over_time x y z overlay dummy = some m ∧
      (fast_predict_over_time_delayed x y z overlay dummy).compute = some m ∧
      (fast_jitted_func (x.map (fun (v : ℤ) => (v : ℚ))) y z overlay).compute
        = some m := by
  have hy' : y.length = (x.map (fun (v : ℤ) => (v : ℚ))).length := by simpa using hy
  have hz' : z.length = (x.map (fun (v : ℤ) => (v : ℚ))).length := by simpa using hz
  refine ⟨predictMat (x.map (fun (v : ℤ) => (v : ℚ))) y z overlay,
    predict_over_time_closed hy' hz' overlay, ?_, ?_, ?_, ?_⟩
  · rw [jitted_func_eq]
    exact predict_over_time_closed hy' hz' overlay
  · exact fast_predict_eq_predictMat hy hz overlay hd
  · show fast_predict_over_time x y z overlay dummy = _
    exact fast_predict_eq_predictMat hy hz overlay hd
  · show jitted_func (x.map (fun (v : ℤ) => (v : ℚ))) y z overlay = _
    rw [jitted_func_eq]
    exact predict_over_time_closed hy' hz' overlay

/-- Witness for C3 at `x = [2]`, `y = [1]`, `z = [1/2]`, `overlay = false`
and a length-15 dummy array of zeros. -/
theorem variants_equivalent_witness :
    ∃ m, predict_over_time (([2] : List ℤ).map (fun (v : ℤ) => (v : ℚ)))
        [1] [1 / 2] false = some m ∧
      jitted_func (([2] : List ℤ).map (fun (v : ℤ) => (v : ℚ)))
        [1] [1 / 2] false = some m ∧
      fast_predict_over_time [2] [1] [1 / 2] false (List.replicate 15 0) = some m ∧
      (fast_predict_over_time_delayed [2] [1] [1 / 2] false
        (List.replicate 15 0)).compute = some m ∧
      (fast_jitted_func (([2] : List ℤ).map (fun (v : ℤ) => (v : ℚ)))
        [1] [1 / 2] false).compute = some m :=
  variants_equivalent [2] [1] [1 / 2] false (List.replicate 15 0) rfl rfl rfl

/-- C4: on equal-length inputs, the `overlay = true` matrix is `1.5` times
the `overlay = false` matrix, element-wise at every `(i, t)`. -/
theorem overlay_scales (x y z : List ℚ)
    (hy : y.length = x.length) (hz : z.length = x.length) :
    ∃ m mt, predict_over_time x y z false = some m ∧
      predict_over_time x y z true = some mt ∧
      ∀ i t : ℕ, (mt.getD i []).getD t 0 = 3 / 2 * ((m.getD i []).getD t 0) := by
  refine ⟨predictMat x y z false, predictMat x y z true,
    predict_over_time_closed hy hz false, predict_over_time_closed hy hz true, ?_⟩
  intro i t
  by_cases hb : i < x.length ∧ t < 15
  · rw [predictMat_getD hb.1 hb.2, predictMat_getD hb.1 hb.2]
    simp
  · rw [predictMat_getD_zero true hb, predictMat_getD_zero false hb]
    simp

/-- Witness for C4 at `x = [2]`, `y = [1]`, `z = [1/2]`. -/
theorem overlay_scales_witness :
    ∃ m mt, predict_over_time [2] [1] [1 / 2] false = some m ∧
      predict_over_time [2] [1] [1 / 2] true = some mt ∧
      ∀ i t : ℕ, (mt.getD i []).getD t 0 = 3 / 2 * ((m.getD i []).getD t 0) :=
  overlay_scales [2] [1] [1 / 2] rfl rfl

/-- C5: at the concrete input `x = [2]`, `y = [1.0]`, `z = [0.5]`,
`overlay = false`, the single returned row holds `2 * t` at time step `t`:
`[0.0, 2.0, 4.0, …, 28.0]`. -/
theorem predict_example_row :
    predict_over_time [2] [1] [1 / 2] false =
      some [(List.range 15).map (fun (t : ℕ) => 2 * (t : ℚ))] ∧
    (List.range 15).map (fun (t : ℕ) => 2 * (t : ℚ)) =
      [0, 2, 4, 6, 8, 10, 12, 14, 16, 18, 20, 22, 24, 26, 28] := by
  constructor <;>
    norm_num [predict_over_time, buildOut, buildOutAux, colStep, rowExpr, bop,
      assignCol, zerosMat, List.range, List.range.loop, List.replicate]

/-- C6: `predict_over_time` is deterministic and depends on nothing besides
its arguments: two calls whose argument arrays hold identical values — on any
two heaps, at any addresses — observe identical result matrices. -/
theorem predict_noninterference (h₁ h₂ : Heap) (rx ry rz sx sy sz : ℕ)
    (overlay : Bool) (hx : h₁[rx]? = h₂[sx]?) (hy : h₁[ry]? = h₂[sy]?)
    (hz : h₁[rz]? = h₂[sz]?) :
    predictImpResult h₁ rx ry rz overlay =
      predictImpResult h₂ sx sy sz overlay := by
  rw [predictImpResult_eq, predictImpResult_eq, hx, hy, hz]

/-- Witness for C6: the same argument values at different addresses on two
different heaps. -/
theorem predict_noninterference_witness :
    predictImpResult [NpVal.vec [2], NpVal.vec [1], NpVal.vec [1 / 2]]
        0 1 2 false =
      predictImpResult [NpVal.mat [], NpVal.vec [2], NpVal.vec [1],
        NpVal.vec [1 / 2]] 1 2 3 false :=
  predict_noninterference
    [NpVal.vec [2], NpVal.vec [1], NpVal.vec [1 / 2]]
    [NpVal.mat [], NpVal.vec [2], NpVal.vec [1], NpVal.vec [1 / 2]]
    0 1 2 1 2 3 false rfl rfl rfl

/-- C7: a call leaves every pre-existing heap cell — in particular the input
arrays `x`, `y`, `z` — unchanged, and the returned matrix lives at a fresh
address distinct from all inputs, so the caller fully owns it. -/
theorem predict_frame (h : Heap) (rx ry rz : ℕ) (overlay : Bool) (h' : Heap)
    (r : ℕ) (hcall : predictImp h rx ry rz overlay = some (h', r)) :
    (∀ a : ℕ, a < h.length → h'[a]? = h[a]?) ∧ h.length ≤ r ∧
      h'[rx]? = h[rx]? ∧ h'[ry]? = h[ry]? ∧ h'[rz]? = h[rz]? ∧
      r ≠ rx ∧ r ≠ ry ∧ r ≠ rz := by
  obtain ⟨x, y, z, out, hx, hy, hz, hb, hh, hr⟩ := predictImp_some_inv hcall
  have hrx : rx < h.length := (List.getElem?_eq_some.mp hx).1
  have hry : ry < h.length := (List.getElem?_eq_some.mp hy).1
  have hrz : rz < h.length := (List.getElem?_eq_some.mp hz).1
  have hpres : ∀ a : ℕ, a < h.length → h'[a]? = h[a]? := by
    intro a ha
    rw [hh, List.getElem?_append_left ha]
  exact ⟨hpres, by omega, hpres rx hrx, hpres ry hry, hpres rz hrz,
    by omega, by omega, by omega⟩

/-- Witness for C7 on a concrete three-cell heap of empty vectors. -/
theorem predict_frame_witness :
    (∀ a : ℕ, a < ([NpVal.vec [], NpVal.vec [], NpVal.vec []] : Heap).length →
      ([NpVal.vec [], NpVal.vec [], NpVal.vec [], NpVal.mat [],
        NpVal.mat []] : Heap)[a]?
        = ([NpVal.vec [], NpVal.vec [], NpVal.vec []] : Heap)[a]?) ∧
    ([NpVal.vec [], NpVal.vec [], NpVal.vec []] : Heap).length ≤ 4 ∧
    ([NpVal.vec [], NpVal.vec [], NpVal.vec [], NpVal.mat [],
      NpVal.mat []] : Heap)[0]?
      = ([NpVal.vec [], NpVal.vec [], NpVal.vec []] : Heap)[0]? ∧
    ([NpVal.vec [], NpVal.vec [], NpVal.vec [], NpVal.mat [],
      NpVal.mat []] : Heap)[1]?
      = ([NpVal.vec [], NpVal.vec [], NpVal.vec []] : Heap)[1]? ∧
    ([NpVal.vec [], NpVal.vec [], NpVal.vec [], NpVal.mat [],
      NpVal.mat []] : Heap)[2]?
      = ([NpVal.vec [], NpVal.vec [], NpVal.vec []] : Heap)[2]? ∧
    (4 : ℕ) ≠ 0 ∧ (4 : ℕ) ≠ 1 ∧ (4 : ℕ) ≠ 2 :=
  predict_frame [NpVal.vec [], NpVal.vec [], NpVal.vec []] 0 1 2 false
    [NpVal.vec [], NpVal.vec [], NpVal.vec [], NpVal.mat [], NpVal.mat []] 4
    (by rfl)

/-- C8: for `fast_predict_over_time`, the number of time steps equals the
length `s` of the fifth (dummy) array argument: the result has shape
`(N, s)` and its entries follow the kernel formula for `t < s`; the fixed
15 steps arise only from a length-15 dummy. -/
theorem fast_predict_shape (x : List ℤ) (y z : List ℚ) (overlay : Bool)
    (dummy : List ℚ) (hy : y.length = x.length) (hz : z.length = x.length) :
    ∃ m, fast_predict_over_time x y z overlay dummy = some m ∧
      m.length = x.length ∧ (∀ row ∈ m, row.length = dummy.length) ∧
      ∀ i t : ℕ, i < x.length → t < dummy.length →
        (m.getD i []).getD t 0 =
          (if overlay then (3 : ℚ) / 2 else 1) *
            ((t : ℚ) * ((x.getD i 0 : ℤ) : ℚ) ^ 2 + y.getD i 0
              - 2 * z.getD i 0 - 2 * (t : ℚ)) := by
  refine ⟨(List.range x.length).map (fun i =>
      fast_kernel (x.getD i 0) (y.getD i 0) (z.getD i 0) overlay dummy.length),
    by rw [fast_predict_over_time, if_pos (And.intro hy hz)], by simp, ?_, ?_⟩
  · intro row hrow
    obtain ⟨i, -, hrow'⟩ := List.mem_map.mp hrow
    rw [← hrow']
    simp [fast_kernel]
  · intro i t hi ht
    have h₁ : i < ((List.range x.length).map (fun i =>
        fast_kernel (x.getD i 0) (y.getD i 0) (z.getD i 0) overlay
          dummy.length)).length := by simpa using hi
    rw [List.getD_eq_getElem _ _ h₁, List.getElem_map, List.getElem_range]
    exact fast_kernel_getD ht _ _ _ _

/-- Witness for C8 with a dummy array of length 2 rather than 15. -/
theorem fast_predict_shape_witness :
    ∃ m, fast_predict_over_time [2] [1] [1 / 2] false [5, 7] = some m ∧
      m.length = ([2] : List ℤ).length ∧
      (∀ row ∈ m, row.length = ([5, 7] : List ℚ).length) ∧
      ∀ i t : ℕ, i < ([2] : List ℤ).length → t < ([5, 7] : List ℚ).length →
        (m.getD i []).getD t 0 =
          (if false then (3 : ℚ) / 2 else 1) *
            ((t : ℚ) * ((([2] : List ℤ).getD i 0 : ℤ) : ℚ) ^ 2
              + ([1] : List ℚ).getD i 0 - 2 * (([1 / 2] : List ℚ).getD i 0)
              - 2 * (t : ℚ)) :=
  fast_predict_shape [2] [1] [1 / 2] false [5, 7] rfl rfl

/-- C9: the dummy argument of `fast_predict_over_time` contributes only its
length, never its contents — same-length dummies give identical results —
and the call does not write to the dummy cell: the output is a freshly
allocated array, not the passed-in buffer. -/
theorem fast_dummy_irrelevant :
    (∀ (x : List ℤ) (y z : List ℚ) (overlay : Bool) (d₁ d₂ : List ℚ),
      d₁.length = d₂.length →
      fast_predict_over_time x y z overlay d₁ =
        fast_predict_over_time x y z overlay d₂) ∧
    (∀ (h : Heap) (rx ry rz rd : ℕ) (overlay : Bool) (h' : Heap) (r : ℕ),
      fastImp h rx ry rz overlay rd = some (h', r) →
      h'[rd]? = h[rd]? ∧ r ≠ rd) := by
  constructor
  · intro x y z overlay d₁ d₂ hd
    simp [fast_predict_over_time, hd]
  · intro h rx ry rz rd overlay h' r hcall
    obtain ⟨m, hh, hr, hrd⟩ := fastImp_some_inv hcall
    constructor
    · rw [hh, List.getElem?_append_left hrd]
    · omega

/-- Witness for C9: two different same-length dummies, and a concrete
heap-level call leaving the dummy cell untouched. -/
theorem fast_dummy_irrelevant_witness :
    fast_predict_over_time [2] [1] [1 / 2] false [5, 7] =
      fast_predict_over_time [2] [1] [1 / 2] false [0, 0] ∧
    (([NpVal.ivec [], NpVal.vec [], NpVal.vec [], NpVal.vec [],
        NpVal.mat []] : Heap)[3]?
      = ([NpVal.ivec [], NpVal.vec [], NpVal.vec [], NpVal.vec []] : Heap)[3]? ∧
      (4 : ℕ) ≠ 3) :=
  ⟨fast_dummy_irrelevant.1 [2] [1] [1 / 2] false [5, 7] [0, 0] rfl,
   fast_dummy_irrelevant.2
     [NpVal.ivec [], NpVal.vec [], NpVal.vec [], NpVal.vec []] 0 1 2 3 false
     [NpVal.ivec [], NpVal.vec [], NpVal.vec [], NpVal.vec [], NpVal.mat []] 4
     (by rfl)⟩

/-- C10: the row count of the returned matrix is the length of `x` alone —
whenever a matrix is returned it has `x.length` rows — and length-1 `y` and
`z` are accepted via broadcasting, still yielding a full `(N, 15)` result. -/
theorem predict_rows_from_x :
    (∀ (x y z : List ℚ) (overlay : Bool) (m : List (List ℚ)),
      predict_over_time x y z overlay = some m → m.length = x.length) ∧
    (∀ (x y z : List ℚ) (overlay : Bool), y.length = 1 → z.length = 1 →
      ∃ m, predict_over_time x y z overlay = some m ∧ m.length = x.length ∧
        ∀ row ∈ m, row.length = 15) := by
  constructor
  · intro x y z overlay m h
    exact predict_over_time_length h
  · intro x y z overlay hy hz
    exact predict_over_time_broadcast hy hz overlay

/-- Witness for C10: the empty-`x` call with length-1 `y`, `z`, and a
two-element `x` with broadcast length-1 `y`, `z`. -/
theorem predict_rows_from_x_witness :
    (([] : List (List ℚ)).length = ([] : List ℚ).length) ∧
    ∃ m, predict_over_time [3, 4] [0] [0] false = some m ∧
      m.length = ([3, 4] : List ℚ).length ∧ ∀ row ∈ m, row.length = 15 :=
  ⟨predict_rows_from_x.1 [] [0] [0] false [] (by rfl),
   predict_rows_from_x.2 [3, 4] [0] [0] false rfl rfl⟩
